import Mathlib

/- Verification development for the traffic-detection core of the repository.
   The definitions below are shallow embeddings of:
   - object_tracking.py : nms (lines 70-119), the per-frame suppression pipeline
     (lines 163-198), and the per-track zone/alert state machine (lines 200-273);
   - traffic_detection_system.py : class SpeedAnalyzer (lines 25-111).
   Real (float) arithmetic is modelled over ℚ where no square root occurs and
   over ℝ in the speed analyzer (np.linalg.norm takes a square root). -/

/- The Batteries library marks the arithmetic of ℚ irreducible, which blocks
kernel evaluation of concrete rational computations; restore the default
transparency locally so that concrete runs of the embedded functions can be
settled by `decide`. -/
attribute [local semireducible] Rat.mul Rat.add Rat.sub Rat.inv

/-! ## Boxes and the inline IoU of `nms` (object_tracking.py lines 81-112)

A box is (x, y, w, h).  `nms` converts to corners x2 = x + w, y2 = y + h and
uses the "+1" pixel convention for areas and intersection sides, exactly as the
source does.  Division is the total division of ℚ. -/

structure Box where
  x : ℚ
  y : ℚ
  w : ℚ
  h : ℚ
deriving DecidableEq, Repr, Inhabited

/-- Area of a box in the "+1" convention of `nms` line 89:
(x2 - x1 + 1) * (y2 - y1 + 1). -/
def nmsArea (b : Box) : ℚ :=
  ((b.x + b.w) - b.x + 1) * ((b.y + b.h) - b.y + 1)

/-- Overlap ratio computed in the `nms` loop, lines 101-112: clamped
intersection with the +1 convention divided by the union area. -/
def ovr (bi bj : Box) : ℚ :=
  let xx1 := max bi.x bj.x
  let yy1 := max bi.y bj.y
  let xx2 := min (bi.x + bi.w) (bj.x + bj.w)
  let yy2 := min (bi.y + bi.h) (bj.y + bj.h)
  let iw := max 0 (xx2 - xx1 + 1)
  let ih := max 0 (yy2 - yy1 + 1)
  let inter := iw * ih
  inter / (nmsArea bi + nmsArea bj - inter)

theorem ovr_comm (bi bj : Box) : ovr bi bj = ovr bj bi := by
  unfold ovr
  rw [max_comm bi.x, max_comm bi.y, min_comm (bi.x + bi.w), min_comm (bi.y + bi.h),
    add_comm (nmsArea bi)]

/-! ## The sort order of `nms` (line 91: order = scores.argsort()[::-1])

np.argsort is modelled as a stable ascending sort of the index list
0, 1, ..., n-1 by score; on distinct indices that is exactly sorting by the
lexicographic key (score, index).  The code then *reverses* that list. -/

/-- Ascending comparison on indices: smaller score first, ties by smaller
original index first (stability of the modelled argsort). -/
def scoreLe (s : List ℚ) (i j : ℕ) : Prop :=
  s.getD i 0 < s.getD j 0 ∨ (s.getD i 0 = s.getD j 0 ∧ i ≤ j)

instance scoreLe.decRel (s : List ℚ) : DecidableRel (scoreLe s) := fun i j => by
  unfold scoreLe; infer_instance

instance scoreLe.total (s : List ℚ) : IsTotal ℕ (scoreLe s) := by
  constructor
  intro i j
  rcases lt_trichotomy (s.getD i 0) (s.getD j 0) with h | h | h
  · exact Or.inl (Or.inl h)
  · rcases Nat.le_total i j with hij | hij
    · exact Or.inl (Or.inr ⟨h, hij⟩)
    · exact Or.inr (Or.inr ⟨h.symm, hij⟩)
  · exact Or.inr (Or.inl h)

instance scoreLe.trans (s : List ℚ) : IsTrans ℕ (scoreLe s) := by
  constructor
  intro a b c hab hbc
  rcases hab with h1 | ⟨h1, h1'⟩
  · rcases hbc with h2 | ⟨h2, _⟩
    · exact Or.inl (h1.trans h2)
    · exact Or.inl (h2 ▸ h1)
  · rcases hbc with h2 | ⟨h2, h2'⟩
    · exact Or.inl (h1 ▸ h2)
    · exact Or.inr ⟨h1.trans h2, h1'.trans h2'⟩

instance scoreLe.antisymm (s : List ℚ) : IsAntisymm ℕ (scoreLe s) := by
  constructor
  intro a b hab hba
  rcases hab with h1 | ⟨h1, h1'⟩ <;> rcases hba with h2 | ⟨h2, h2'⟩
  · exact absurd (h1.trans h2) (lt_irrefl _)
  · exact absurd h1 (by rw [h2]; exact lt_irrefl _)
  · exact absurd h2 (by rw [h1]; exact lt_irrefl _)
  · exact Nat.le_antisymm h1' h2'

/-- Descending comparison: the flip of `scoreLe`.  Larger score first; ties by
larger original index first. -/
def scoreGe (s : List ℚ) (i j : ℕ) : Prop := scoreLe s j i

instance scoreGe.decRel (s : List ℚ) : DecidableRel (scoreGe s) := fun i j => by
  unfold scoreGe; infer_instance

instance scoreGe.total (s : List ℚ) : IsTotal ℕ (scoreGe s) :=
  ⟨fun i j => (scoreLe.total s).total j i⟩

instance scoreGe.trans (s : List ℚ) : IsTrans ℕ (scoreGe s) :=
  ⟨fun _ _ _ hab hbc => (scoreLe.trans s).trans _ _ _ hbc hab⟩

instance scoreGe.antisymm (s : List ℚ) : IsAntisymm ℕ (scoreGe s) :=
  ⟨fun _ _ hab hba => (scoreLe.antisymm s).antisymm _ _ hba hab⟩

/-- Descending comparison with ties broken by *original input order* (smaller
index first).  This is what the spec sentence for the claim asserts; it is NOT
what the code computes. -/
def scoreGeStable (s : List ℚ) (i j : ℕ) : Prop :=
  s.getD j 0 < s.getD i 0 ∨ (s.getD i 0 = s.getD j 0 ∧ i ≤ j)

instance scoreGeStable.decRel (s : List ℚ) : DecidableRel (scoreGeStable s) := fun i j => by
  unfold scoreGeStable; infer_instance

/-- Model of scores.argsort(): stable ascending argsort of the indices. -/
def argsortAsc (s : List ℚ) : List ℕ :=
  List.insertionSort (scoreLe s) (List.range s.length)

/-- The processing order of `nms` line 91: the reversal of the ascending
argsort. -/
def nmsOrder (s : List ℚ) : List ℕ := (argsortAsc s).reverse

/-- The greedy suppression loop of `nms`, lines 94-117: keep the first index of
the remaining order, drop every later index whose overlap with it exceeds the
threshold, recurse on the survivors.  Fuel makes the recursion structural; the
initial fuel is the length of the order list, which is always sufficient. -/
def nmsAux (bs : List Box) (thr : ℚ) : ℕ → List ℕ → List ℕ
  | 0, _ => []
  | _ + 1, [] => []
  | fuel + 1, i :: rest =>
      i :: nmsAux bs thr fuel
        (rest.filter fun j => decide (ovr (bs.getD i default) (bs.getD j default) ≤ thr))

/-- nms (object_tracking.py lines 70-119): empty input gives an empty keep
list, otherwise the greedy loop runs over the reversed ascending argsort. -/
def nms (bs : List Box) (s : List ℚ) (thr : ℚ) : List ℕ :=
  if bs.isEmpty then [] else nmsAux bs thr (nmsOrder s).length (nmsOrder s)

/-- Modelled from the spec sentence of the claim: identical greedy loop, but
the processing order sorts by score descending with ties broken by original
input order (stable).  Used only to compare against `nms`. -/
def nmsClaim (bs : List Box) (s : List ℚ) (thr : ℚ) : List ℕ :=
  if bs.isEmpty then [] else
    nmsAux bs thr (List.insertionSort (scoreGeStable s) (List.range s.length)).length
      (List.insertionSort (scoreGeStable s) (List.range s.length))

/-- The amended order: sort by score descending with ties broken by *reverse*
original input order. -/
def nmsAmended (bs : List Box) (s : List ℚ) (thr : ℚ) : List ℕ :=
  if bs.isEmpty then [] else
    nmsAux bs thr (List.insertionSort (scoreGe s) (List.range s.length)).length
      (List.insertionSort (scoreGe s) (List.range s.length))

/-! ## The per-frame suppression pipeline (process_frame lines 163-198) -/

/-- One detection of a frame: bounding box, track id, class, confidence. -/
structure Det where
  box : Box
  tid : ℤ
  cls : ℤ
  score : ℚ
deriving DecidableEq, Repr, Inhabited

/-- Area filter, lines 163-176: keep a detection iff its box area is below a
fifth of the frame area. -/
def areaOK (frameArea : ℚ) (d : Det) : Bool :=
  decide (d.box.w * d.box.h < frameArea / 5)

/-- Aspect-ratio filter, lines 185-198: keep a detection iff 0.2 < w/h < 5.0. -/
def aspectOK (d : Det) : Bool :=
  decide ((1 : ℚ) / 5 < d.box.w / d.box.h) && decide (d.box.w / d.box.h < 5)

/-- The full suppression pipeline of process_frame lines 163-198: area filter,
then nms at threshold 0.4 (the call on line 179), then the aspect-ratio
filter.  The nms keep indices select from the area-filtered list. -/
def suppress (frameArea : ℚ) (dets : List Det) : List Det :=
  let valid := dets.filter (areaOK frameArea)
  let keep := nms (valid.map fun d => d.box) (valid.map fun d => d.score) (2 / 5)
  (keep.map fun i => valid.getD i default).filter aspectOK

/-! ## Lemmas about the greedy loop -/

theorem nmsAux_subset (bs : List Box) (thr : ℚ) :
    ∀ fuel l, ∀ x ∈ nmsAux bs thr fuel l, x ∈ l := by
  intro fuel
  induction fuel with
  | zero => intro l x hx; simp [nmsAux] at hx
  | succ n ih =>
    intro l x hx
    cases l with
    | nil => simp [nmsAux] at hx
    | cons i rest =>
      simp only [nmsAux, List.mem_cons] at hx
      rcases hx with rfl | hx
      · exact List.mem_cons_self _ _
      · exact List.mem_cons_of_mem _ (List.mem_of_mem_filter (ih _ _ hx))

theorem nmsAux_pairwise (bs : List Box) (thr : ℚ) :
    ∀ fuel l, (nmsAux bs thr fuel l).Pairwise
      (fun i j => ovr (bs.getD i default) (bs.getD j default) ≤ thr) := by
  intro fuel
  induction fuel with
  | zero => intro l; simp [nmsAux]
  | succ n ih =>
    intro l
    cases l with
    | nil => simp [nmsAux]
    | cons i rest =>
      simp only [nmsAux]
      refine List.Pairwise.cons ?_ (ih _)
      intro j hj
      have hmem := nmsAux_subset bs thr n _ j hj
      have hfil := List.of_mem_filter hmem
      simpa using hfil

theorem nmsAux_eq_self (bs : List Box) (thr : ℚ) :
    ∀ fuel l, l.length ≤ fuel → l.Nodup →
      (∀ i ∈ l, ∀ j ∈ l, i ≠ j → ovr (bs.getD i default) (bs.getD j default) ≤ thr) →
      nmsAux bs thr fuel l = l := by
  intro fuel
  induction fuel with
  | zero =>
    intro l hl _ _
    rw [List.eq_nil_of_length_eq_zero (Nat.le_zero.mp hl)]
    rfl
  | succ n ih =>
    intro l hl hnd hall
    cases l with
    | nil => rfl
    | cons i rest =>
      simp only [nmsAux]
      have hfil : rest.filter
          (fun j => decide (ovr (bs.getD i default) (bs.getD j default) ≤ thr)) = rest := by
        rw [List.filter_eq_self]
        intro j hj
        have hne : i ≠ j := by
          intro h
          exact (List.nodup_cons.mp hnd).1 (h ▸ hj)
        simpa using hall i (List.mem_cons_self _ _) j (List.mem_cons_of_mem _ hj) hne
      rw [hfil, ih rest (Nat.le_of_succ_le_succ hl) (List.nodup_cons.mp hnd).2]
      intro a ha b hb hab
      exact hall a (List.mem_cons_of_mem _ ha) b (List.mem_cons_of_mem _ hb) hab

theorem nmsAux_suppressed (bs : List Box) (thr : ℚ) :
    ∀ fuel l, l.length ≤ fuel → ∀ j ∈ l, j ∉ nmsAux bs thr fuel l →
      ∃ i ∈ nmsAux bs thr fuel l, thr < ovr (bs.getD i default) (bs.getD j default) := by
  intro fuel
  induction fuel with
  | zero =>
    intro l hl j hj _
    rw [List.eq_nil_of_length_eq_zero (Nat.le_zero.mp hl)] at hj
    simp at hj
  | succ n ih =>
    intro l hl j hj hnot
    cases l with
    | nil => simp at hj
    | cons i rest =>
      simp only [nmsAux, List.mem_cons] at hnot ⊢
      push_neg at hnot
      obtain ⟨hji, hnot⟩ := hnot
      rcases List.mem_cons.mp hj with rfl | hjr
      · exact absurd rfl hji
      · by_cases hc : ovr (bs.getD i default) (bs.getD j default) ≤ thr
        · have hjf : j ∈ rest.filter
              (fun j => decide (ovr (bs.getD i default) (bs.getD j default) ≤ thr)) :=
            List.mem_filter.mpr ⟨hjr, by simpa using hc⟩
          have hlen : (rest.filter
              (fun j => decide (ovr (bs.getD i default) (bs.getD j default) ≤ thr))).length ≤ n :=
            le_trans (List.length_filter_le _ _) (Nat.le_of_succ_le_succ hl)
          obtain ⟨a, ha, hov⟩ := ih _ hlen j hjf hnot
          exact ⟨a, Or.inr ha, hov⟩
        · exact ⟨i, Or.inl rfl, not_le.mp hc⟩

/-! ## The processing order -/

theorem nmsOrder_perm (s : List ℚ) : (nmsOrder s).Perm (List.range s.length) :=
  (List.reverse_perm _).trans (List.perm_insertionSort _ _)

theorem nmsOrder_nodup (s : List ℚ) : (nmsOrder s).Nodup :=
  ((nmsOrder_perm s).nodup_iff).mpr (List.nodup_range _)

theorem mem_nmsOrder (s : List ℚ) {i : ℕ} : i ∈ nmsOrder s ↔ i < s.length := by
  rw [(nmsOrder_perm s).mem_iff, List.mem_range]

/-- The reversal of the stable ascending argsort is exactly the descending sort
whose ties are in reverse original order. -/
theorem nmsOrder_eq_sortDesc (s : List ℚ) :
    nmsOrder s = List.insertionSort (scoreGe s) (List.range s.length) := by
  apply List.eq_of_perm_of_sorted (r := scoreGe s)
  · exact (nmsOrder_perm s).trans (List.perm_insertionSort _ _).symm
  · show List.Pairwise (scoreGe s) (argsortAsc s).reverse
    rw [List.pairwise_reverse]
    exact List.sorted_insertionSort (scoreLe s) (List.range s.length)
  · exact List.sorted_insertionSort _ _

/-- Two identical boxes with equal scores: the inputs of the tie-break
counterexample. -/
def tieBoxes : List Box := [⟨0, 0, 10, 10⟩, ⟨0, 0, 10, 10⟩]

/-- Equal confidence scores for the two boxes. -/
def tieScores : List ℚ := [1, 1]

/-- C3 counterexample: with two identical boxes of equal score, the code keeps
index 1 (the later box) because scores.argsort()[::-1] reverses the stable
ascending order, while the claimed original-order tie-break would keep index 0.
The kept index set therefore differs from the claim at this concrete input. -/
theorem nms_tie_break_counterexample :
    nms tieBoxes tieScores (2 / 5) = [1] ∧
    nmsClaim tieBoxes tieScores (2 / 5) = [0] ∧
    nms tieBoxes tieScores (2 / 5) ≠ nmsClaim tieBoxes tieScores (2 / 5) := by
  refine ⟨by decide, by decide, by decide⟩

/-- C3 (amended): the NMS step is the greedy algorithm over the indices sorted
by score descending with ties between equal scores broken by *reverse* original
input order (the order is the reversal of a stable ascending argsort); the kept
indices are pairwise non-suppressing at the threshold, and every dropped index
is suppressed by some kept index whose overlap with it exceeds the threshold.
Still deterministic given identical scores. -/
theorem nms_sorts_desc_reverse_ties (bs : List Box) (s : List ℚ) (thr : ℚ) :
    nms bs s thr = nmsAmended bs s thr ∧
    (nms bs s thr).Pairwise
      (fun i j => ovr (bs.getD i default) (bs.getD j default) ≤ thr) ∧
    (∀ j < s.length, bs.isEmpty = false → j ∉ nms bs s thr →
      ∃ i ∈ nms bs s thr, thr < ovr (bs.getD i default) (bs.getD j default)) := by
  refine ⟨?_, ?_, ?_⟩
  · simp only [nms, nmsAmended, nmsOrder_eq_sortDesc]
  · unfold nms
    split
    · exact List.Pairwise.nil
    · exact nmsAux_pairwise bs thr _ _
  · intro j hj hne hnot
    unfold nms at hnot ⊢
    rw [hne] at hnot ⊢
    simp only [Bool.false_eq_true, if_false] at hnot ⊢
    exact nmsAux_suppressed bs thr _ _ (le_refl _) j ((mem_nmsOrder s).mpr hj) hnot

/-- Witness boxes for the amended NMS theorem: two overlapping boxes with
distinct scores. -/
def wBoxes : List Box := [⟨0, 0, 10, 10⟩, ⟨1, 1, 10, 10⟩]

/-- Witness scores: strictly descending. -/
def wScores : List ℚ := [1, 1 / 2]

/-- Witness for the amended NMS theorem at a concrete input: box 1 is dropped
and box 0 suppresses it. -/
theorem nms_sorts_desc_reverse_ties_witness :
    nms wBoxes wScores (2 / 5) = nmsAmended wBoxes wScores (2 / 5) ∧
    (1 < wScores.length ∧ wBoxes.isEmpty = false ∧ 1 ∉ nms wBoxes wScores (2 / 5)) ∧
    (∃ i ∈ nms wBoxes wScores (2 / 5),
      (2 : ℚ) / 5 < ovr (wBoxes.getD i default) (wBoxes.getD 1 default)) := by
  refine ⟨(nms_sorts_desc_reverse_ties wBoxes wScores (2 / 5)).1,
    ⟨by decide, by decide, by decide⟩,
    (nms_sorts_desc_reverse_ties wBoxes wScores (2 / 5)).2.2 1 (by decide) (by decide)
      (by decide)⟩

/-! ## Idempotence of the suppression pipeline -/

theorem map_getD_range {α : Type} (l : List α) (d : α) :
    (List.range l.length).map (fun i => l.getD i d) = l := by
  induction l with
  | nil => rfl
  | cons a t ih =>
    rw [List.length_cons, List.range_succ_eq_map, List.map_cons, List.map_map]
    refine congrArg₂ _ rfl ?_
    calc List.map ((fun i => (a :: t).getD i d) ∘ Nat.succ) (List.range t.length)
        = List.map (fun i => t.getD i d) (List.range t.length) :=
          List.map_congr_left (fun i _ => rfl)
      _ = t := ih

theorem nms_pairwise (bs : List Box) (s : List ℚ) (thr : ℚ) :
    (nms bs s thr).Pairwise
      (fun i j => ovr (bs.getD i default) (bs.getD j default) ≤ thr) := by
  unfold nms
  split
  · exact List.Pairwise.nil
  · exact nmsAux_pairwise bs thr _ _

theorem mem_nms_lt (bs : List Box) (s : List ℚ) (thr : ℚ) :
    ∀ i ∈ nms bs s thr, i < s.length := by
  intro i hi
  unfold nms at hi
  split at hi
  · simp at hi
  · exact (mem_nmsOrder s).mp (nmsAux_subset _ _ _ _ _ hi)

theorem getD_map_box (valid : List Det) (i : ℕ) (h : i < valid.length) :
    (valid.map fun d => d.box).getD i default = (valid.getD i default).box := by
  rw [List.getD_eq_getElem _ _ (by simpa using h), List.getD_eq_getElem _ _ h,
    List.getElem_map]

/-- If all pairs of distinct in-range indices are non-suppressing, the greedy
loop keeps the whole processing order. -/
theorem nms_eq_order_of_pairwise (bs : List Box) (s : List ℚ) (thr : ℚ)
    (h : ∀ i < s.length, ∀ j < s.length, i ≠ j →
      ovr (bs.getD i default) (bs.getD j default) ≤ thr)
    (hne : bs.isEmpty = false) :
    nms bs s thr = nmsOrder s := by
  unfold nms
  rw [hne]
  simp only [Bool.false_eq_true, if_false]
  refine nmsAux_eq_self bs thr _ _ (le_refl _) (nmsOrder_nodup s) ?_
  intro i hi j hj hij
  exact h i ((mem_nmsOrder s).mp hi) j ((mem_nmsOrder s).mp hj) hij

theorem suppress_def (A : ℚ) (l : List Det) :
    suppress A l = ((nms ((l.filter (areaOK A)).map fun d => d.box)
        ((l.filter (areaOK A)).map fun d => d.score) (2 / 5)).map
      (fun i => (l.filter (areaOK A)).getD i default)).filter aspectOK := rfl

theorem suppress_subset_valid (A : ℚ) (dets : List Det) :
    ∀ d ∈ suppress A dets, d ∈ dets.filter (areaOK A) := by
  intro d hd
  unfold suppress at hd
  have hd' := List.mem_of_mem_filter hd
  obtain ⟨i, hi, rfl⟩ := List.mem_map.mp hd'
  have hlt : i < (dets.filter (areaOK A)).length := by
    simpa using mem_nms_lt _ _ _ i hi
  rw [List.getD_eq_getElem _ _ hlt]
  exact List.getElem_mem hlt

theorem suppress_areaOK (A : ℚ) (dets : List Det) :
    ∀ d ∈ suppress A dets, areaOK A d = true := fun d hd =>
  List.of_mem_filter (suppress_subset_valid A dets d hd)

theorem suppress_aspectOK (A : ℚ) (dets : List Det) :
    ∀ d ∈ suppress A dets, aspectOK d = true := by
  intro d hd
  unfold suppress at hd
  exact List.of_mem_filter hd

/-- The detections kept by one run of the pipeline are pairwise
non-suppressing at the threshold 0.4, in both orientations. -/
theorem suppress_pairwise (A : ℚ) (dets : List Det) :
    (suppress A dets).Pairwise
      (fun d e => ovr d.box e.box ≤ 2 / 5 ∧ ovr e.box d.box ≤ 2 / 5) := by
  unfold suppress
  apply List.Pairwise.filter
  rw [List.pairwise_map]
  refine List.Pairwise.imp_of_mem ?_
    (nms_pairwise ((dets.filter (areaOK A)).map fun d => d.box)
      ((dets.filter (areaOK A)).map fun d => d.score) (2 / 5))
  intro i j hi hj hij
  have hi' : i < (dets.filter (areaOK A)).length := by
    simpa using mem_nms_lt _ _ _ i hi
  have hj' : j < (dets.filter (areaOK A)).length := by
    simpa using mem_nms_lt _ _ _ j hj
  rw [getD_map_box _ _ hi', getD_map_box _ _ hj'] at hij
  exact ⟨hij, by rw [ovr_comm]; exact hij⟩

/-- C7: the suppression pipeline is idempotent: running it again on its own
output returns the same detections (as a permutation, hence the same set of
kept (box, id, class) triples). -/
theorem suppress_idempotent (A : ℚ) (dets : List Det) :
    (suppress A (suppress A dets)).Perm (suppress A dets) := by
  by_cases hnil : suppress A dets = []
  · rw [hnil]
    have hemp : suppress A [] = [] := rfl
    rw [hemp]
  · have hpair := suppress_pairwise A dets
    have hidx := List.pairwise_iff_getElem.mp hpair
    have h1 : (suppress A dets).filter (areaOK A) = suppress A dets :=
      List.filter_eq_self.mpr (fun d hd => suppress_areaOK A dets d hd)
    have hne : ((suppress A dets).map fun d => d.box).isEmpty = false := by
      cases hsd : suppress A dets with
      | nil => exact absurd hsd hnil
      | cons a t => rfl
    have hpw : ∀ i < ((suppress A dets).map fun d => d.score).length,
        ∀ j < ((suppress A dets).map fun d => d.score).length, i ≠ j →
        ovr (((suppress A dets).map fun d => d.box).getD i default)
          (((suppress A dets).map fun d => d.box).getD j default) ≤ 2 / 5 := by
      intro i hi j hj hij
      rw [List.length_map] at hi hj
      rw [getD_map_box _ _ hi, getD_map_box _ _ hj,
        List.getD_eq_getElem _ _ hi, List.getD_eq_getElem _ _ hj]
      rcases Nat.lt_or_ge i j with h | h
      · exact (hidx i j hi hj h).1
      · exact (hidx j i hj hi (lt_of_le_of_ne h (Ne.symm hij))).2
    have h2 : nms ((suppress A dets).map fun d => d.box)
        ((suppress A dets).map fun d => d.score) (2 / 5) =
        nmsOrder ((suppress A dets).map fun d => d.score) :=
      nms_eq_order_of_pairwise _ _ _ hpw hne
    have hperm : (nmsOrder ((suppress A dets).map fun d => d.score)).Perm
        (List.range (suppress A dets).length) := by
      have := nmsOrder_perm ((suppress A dets).map fun d => d.score)
      rwa [List.length_map] at this
    have hstep : suppress A (suppress A dets) =
        ((nmsOrder ((suppress A dets).map fun d => d.score)).map
          (fun i => (suppress A dets).getD i default)).filter aspectOK := by
      rw [suppress_def A (suppress A dets), h1, h2]
    have hstep2 : (((List.range (suppress A dets).length).map
        (fun i => (suppress A dets).getD i default)).filter aspectOK) =
        suppress A dets := by
      rw [map_getD_range]
      exact List.filter_eq_self.mpr (fun d hd => suppress_aspectOK A dets d hd)
    rw [hstep]
    conv_rhs => rw [← hstep2]
    exact List.Perm.filter aspectOK
      (List.Perm.map (fun i => (suppress A dets).getD i default) hperm)

/-! ## The zone / alert state machine (object_tracking.py lines 200-273)

The loop body of process_frame drives, for each track and frame, an entry
test against the count polygon (line 220), then an if/elif pair: the alert
branch when the centre lies inside or on the alert polygon (lines 227-264),
ELSE the exit branch (lines 265-273).  cv2.pointPolygonTest is an external
library call; its result enters the logic only through its sign, so each frame
carries the two signs.  cntTest is the sign for the count polygon: line 220
tests it with >= 0, and the measured-distance variant on line 266 is negative
exactly when this sign is negative.  alertTest is the sign for the alert
polygon (line 227).  time.time() is the frame time `now`. -/

/-- Classes tracked (module constant OBJ_LIST, line 34). -/
def OBJ_LIST : List ℤ := [0, 1, 2, 3, 4]

/-- Alert-eligible classes (module constant ALERT_OBJ_LIST, line 36). -/
def ALERT_OBJ_LIST : List ℤ := [0, 2]

/-- The state threaded through process_frame that the zone logic touches:
counters (initialize lines 51-53), the entered set (line 55), the alert entry
times (line 57) and the already-warned set (line 59). -/
structure ZoneState where
  count_passed : ℤ
  count_exited : ℤ
  entered_ids : Finset ℤ
  entry_time : ℤ → Option ℚ
  warned_ids : Finset ℤ

/-- The initial zone state. -/
def zoneInit : ZoneState :=
  { count_passed := 0, count_exited := 0, entered_ids := ∅,
    entry_time := fun _ => none, warned_ids := ∅ }

/-- Entry transition, line 220-224: a track not yet entered whose point is
inside or on the count polygon is counted in and remembered. -/
def entryStep (s : ZoneState) (tid : ℤ) (cntTest : ℤ) : ZoneState :=
  if tid ∉ s.entered_ids ∧ 0 ≤ cntTest then
    { s with count_passed := s.count_passed + 1,
             entered_ids := insert tid s.entered_ids }
  else s

/-- The if/elif of lines 227-273 on the state after the entry test: the alert
branch (timer bookkeeping, the once-per-id alert block of lines 252-260,
timer deletion for ineligible classes), otherwise the exit branch.  The Bool
reports whether the once-per-id alert block fired on this frame. -/
def alertExitStep (s1 : ZoneState) (tid cls : ℤ) (cntTest alertTest : ℤ)
    (now : ℚ) : ZoneState × Bool :=
  if 0 ≤ alertTest then
    if cls ∈ ALERT_OBJ_LIST then
      match s1.entry_time tid with
      | none =>
          ({ s1 with entry_time := fun k => if k = tid then some now else s1.entry_time k },
            false)
      | some t =>
          if 2 < now - t then
            if tid ∉ s1.warned_ids then
              ({ s1 with warned_ids := insert tid s1.warned_ids }, true)
            else (s1, false)
          else (s1, false)
    else
      ({ s1 with entry_time := fun k => if k = tid then none else s1.entry_time k },
        false)
  else if tid ∈ s1.entered_ids ∧ cntTest < 0 then
    ({ s1 with count_exited := s1.count_exited + 1,
               entered_ids := s1.entered_ids.erase tid,
               entry_time := fun k => if k = tid then none else s1.entry_time k },
      false)
  else (s1, false)

/-- One track processed on one frame: the whole loop body, lines 219-273. -/
def stepTrack (s : ZoneState) (tid cls : ℤ) (cntTest alertTest : ℤ)
    (now : ℚ) : ZoneState × Bool :=
  alertExitStep (entryStep s tid cntTest) tid cls cntTest alertTest now

/-- Drive one track through a list of frames, each given as
(cntTest, alertTest, time); collect the per-frame alert flags. -/
def runTrack (s : ZoneState) (tid cls : ℤ) :
    List (ℤ × ℤ × ℚ) → ZoneState × List Bool
  | [] => (s, [])
  | f :: fs =>
      let r := stepTrack s tid cls f.1 f.2.1 f.2.2
      let rest := runTrack r.1 tid cls fs
      (rest.1, r.2 :: rest.2)

/-! ## Field lemmas for the two zone transitions -/

@[simp] theorem entryStep_exited (s : ZoneState) (tid c : ℤ) :
    (entryStep s tid c).count_exited = s.count_exited := by
  unfold entryStep; split <;> rfl

@[simp] theorem entryStep_entry_time (s : ZoneState) (tid c : ℤ) :
    (entryStep s tid c).entry_time = s.entry_time := by
  unfold entryStep; split <;> rfl

@[simp] theorem entryStep_warned (s : ZoneState) (tid c : ℤ) :
    (entryStep s tid c).warned_ids = s.warned_ids := by
  unfold entryStep; split <;> rfl

theorem entryStep_passed (s : ZoneState) (tid c : ℤ) :
    (entryStep s tid c).count_passed =
      if tid ∉ s.entered_ids ∧ 0 ≤ c then s.count_passed + 1 else s.count_passed := by
  unfold entryStep; split <;> rfl

theorem entryStep_entered (s : ZoneState) (tid c : ℤ) :
    (entryStep s tid c).entered_ids =
      if tid ∉ s.entered_ids ∧ 0 ≤ c then insert tid s.entered_ids
      else s.entered_ids := by
  unfold entryStep; split <;> rfl

theorem alertExitStep_passed (s1 : ZoneState) (tid cls c a : ℤ) (now : ℚ) :
    (alertExitStep s1 tid cls c a now).1.count_passed = s1.count_passed := by
  unfold alertExitStep
  repeat' split
  all_goals rfl

theorem alertExitStep_exited (s1 : ZoneState) (tid cls c a : ℤ) (now : ℚ) :
    (alertExitStep s1 tid cls c a now).1.count_exited =
      if ¬0 ≤ a ∧ tid ∈ s1.entered_ids ∧ c < 0 then s1.count_exited + 1
      else s1.count_exited := by
  unfold alertExitStep
  by_cases ha : 0 ≤ a
  · rw [if_pos ha,
      if_neg (show ¬(¬0 ≤ a ∧ tid ∈ s1.entered_ids ∧ c < 0) from fun h => h.1 ha)]
    repeat' split
    all_goals rfl
  · rw [if_neg ha]
    by_cases hx : tid ∈ s1.entered_ids ∧ c < 0
    · rw [if_pos hx, if_pos (show ¬0 ≤ a ∧ tid ∈ s1.entered_ids ∧ c < 0 from ⟨ha, hx⟩)]
    · rw [if_neg hx,
        if_neg (show ¬(¬0 ≤ a ∧ tid ∈ s1.entered_ids ∧ c < 0) from fun h => hx h.2)]

theorem alertExitStep_entered (s1 : ZoneState) (tid cls c a : ℤ) (now : ℚ) :
    (alertExitStep s1 tid cls c a now).1.entered_ids =
      if ¬0 ≤ a ∧ tid ∈ s1.entered_ids ∧ c < 0 then s1.entered_ids.erase tid
      else s1.entered_ids := by
  unfold alertExitStep
  by_cases ha : 0 ≤ a
  · rw [if_pos ha,
      if_neg (show ¬(¬0 ≤ a ∧ tid ∈ s1.entered_ids ∧ c < 0) from fun h => h.1 ha)]
    repeat' split
    all_goals rfl
  · rw [if_neg ha]
    by_cases hx : tid ∈ s1.entered_ids ∧ c < 0
    · rw [if_pos hx, if_pos (show ¬0 ≤ a ∧ tid ∈ s1.entered_ids ∧ c < 0 from ⟨ha, hx⟩)]
    · rw [if_neg hx,
        if_neg (show ¬(¬0 ≤ a ∧ tid ∈ s1.entered_ids ∧ c < 0) from fun h => hx h.2)]

theorem alertExitStep_warned_subset (s1 : ZoneState) (tid cls c a : ℤ) (now : ℚ) :
    s1.warned_ids ⊆ (alertExitStep s1 tid cls c a now).1.warned_ids := by
  unfold alertExitStep
  repeat' split
  all_goals first
    | exact Finset.Subset.refl _
    | exact Finset.subset_insert _ _

theorem stepTrack_passed (s : ZoneState) (tid cls c a : ℤ) (now : ℚ) :
    (stepTrack s tid cls c a now).1.count_passed =
      if tid ∉ s.entered_ids ∧ 0 ≤ c then s.count_passed + 1 else s.count_passed := by
  unfold stepTrack
  rw [alertExitStep_passed, entryStep_passed]

theorem stepTrack_exited (s : ZoneState) (tid cls c a : ℤ) (now : ℚ) :
    (stepTrack s tid cls c a now).1.count_exited =
      if ¬0 ≤ a ∧ tid ∈ s.entered_ids ∧ c < 0 then s.count_exited + 1
      else s.count_exited := by
  unfold stepTrack
  rw [alertExitStep_exited, entryStep_exited]
  by_cases hc : c < 0
  · have hent : (entryStep s tid c).entered_ids = s.entered_ids := by
      rw [entryStep_entered, if_neg (fun h => absurd hc (not_lt.mpr h.2))]
    rw [hent]
  · rw [if_neg (show ¬(¬0 ≤ a ∧ tid ∈ (entryStep s tid c).entered_ids ∧ c < 0) from
        fun h => hc h.2.2),
      if_neg (show ¬(¬0 ≤ a ∧ tid ∈ s.entered_ids ∧ c < 0) from fun h => hc h.2.2)]

theorem stepTrack_entered (s : ZoneState) (tid cls c a : ℤ) (now : ℚ) :
    (stepTrack s tid cls c a now).1.entered_ids =
      if tid ∉ s.entered_ids ∧ 0 ≤ c then insert tid s.entered_ids
      else if ¬0 ≤ a ∧ tid ∈ s.entered_ids ∧ c < 0 then s.entered_ids.erase tid
      else s.entered_ids := by
  unfold stepTrack
  rw [alertExitStep_entered, entryStep_entered]
  by_cases he : tid ∉ s.entered_ids ∧ 0 ≤ c
  · rw [if_pos he, if_pos he,
      if_neg (show ¬(¬0 ≤ a ∧ tid ∈ insert tid s.entered_ids ∧ c < 0) from
        fun h => absurd h.2.2 (not_lt.mpr he.2))]
  · rw [if_neg he, if_neg he]

theorem stepTrack_warned_subset (s : ZoneState) (tid cls c a : ℤ) (now : ℚ) :
    s.warned_ids ⊆ (stepTrack s tid cls c a now).1.warned_ids := by
  unfold stepTrack
  have h := alertExitStep_warned_subset (entryStep s tid c) tid cls c a now
  rwa [entryStep_warned] at h

theorem stepTrack_emit_false_of_warned (s : ZoneState) (tid cls c a : ℤ)
    (now : ℚ) (hw : tid ∈ s.warned_ids) :
    (stepTrack s tid cls c a now).2 = false := by
  unfold stepTrack alertExitStep
  repeat' split
  all_goals try rfl
  all_goals rename_i h
  all_goals rw [entryStep_warned] at h
  all_goals exact absurd hw h

theorem stepTrack_emit_not_eligible (s : ZoneState) (tid cls c a : ℤ)
    (now : ℚ) (hcls : cls ∉ ALERT_OBJ_LIST) :
    (stepTrack s tid cls c a now).2 = false := by
  unfold stepTrack alertExitStep
  by_cases ha : 0 ≤ a
  · rw [if_pos ha, if_neg hcls]
  · rw [if_neg ha]
    split <;> rfl

theorem stepTrack_alert_start (s : ZoneState) (tid cls c a : ℤ) (now : ℚ)
    (ha : 0 ≤ a) (hcls : cls ∈ ALERT_OBJ_LIST) (het : s.entry_time tid = none) :
    stepTrack s tid cls c a now =
      ({ entryStep s tid c with
          entry_time := fun k => if k = tid then some now else s.entry_time k },
        false) := by
  unfold stepTrack alertExitStep
  rw [if_pos ha, if_pos hcls, entryStep_entry_time]
  simp only [het]

theorem stepTrack_alert_wait (s : ZoneState) (tid cls c a : ℤ) (now t0 : ℚ)
    (ha : 0 ≤ a) (hcls : cls ∈ ALERT_OBJ_LIST) (het : s.entry_time tid = some t0)
    (hlt : ¬2 < now - t0) :
    stepTrack s tid cls c a now = (entryStep s tid c, false) := by
  unfold stepTrack alertExitStep
  rw [if_pos ha, if_pos hcls, entryStep_entry_time]
  simp only [het]
  rw [if_neg hlt]

theorem stepTrack_alert_fire (s : ZoneState) (tid cls c a : ℤ) (now t0 : ℚ)
    (ha : 0 ≤ a) (hcls : cls ∈ ALERT_OBJ_LIST) (het : s.entry_time tid = some t0)
    (hgt : 2 < now - t0) (hw : tid ∉ s.warned_ids) :
    stepTrack s tid cls c a now =
      ({ entryStep s tid c with warned_ids := insert tid s.warned_ids }, true) := by
  unfold stepTrack alertExitStep
  rw [if_pos ha, if_pos hcls, entryStep_entry_time]
  simp only [het]
  rw [if_pos hgt,
    if_pos (show tid ∉ (entryStep s tid c).warned_ids from by
      rw [entryStep_warned]; exact hw),
    entryStep_warned]
  rw [entryStep_entry_time]

theorem stepTrack_emit_true (s : ZoneState) (tid cls c a : ℤ) (now : ℚ)
    (h : (stepTrack s tid cls c a now).2 = true) :
    tid ∉ s.warned_ids ∧ tid ∈ (stepTrack s tid cls c a now).1.warned_ids := by
  by_cases ha : 0 ≤ a
  · by_cases hcls : cls ∈ ALERT_OBJ_LIST
    · cases het : s.entry_time tid with
      | none =>
        rw [stepTrack_alert_start s tid cls c a now ha hcls het] at h
        exact absurd h (by simp)
      | some t0 =>
        by_cases hgt : 2 < now - t0
        · by_cases hw : tid ∈ s.warned_ids
          · rw [stepTrack_emit_false_of_warned s tid cls c a now hw] at h
            exact absurd h (by simp)
          · refine ⟨hw, ?_⟩
            rw [stepTrack_alert_fire s tid cls c a now t0 ha hcls het hgt hw]
            exact Finset.mem_insert_self _ _
        · rw [stepTrack_alert_wait s tid cls c a now t0 ha hcls het hgt] at h
          exact absurd h (by simp)
    · rw [stepTrack_emit_not_eligible s tid cls c a now hcls] at h
      exact absurd h (by simp)
  · have hf : (stepTrack s tid cls c a now).2 = false := by
      unfold stepTrack alertExitStep
      rw [if_neg ha]
      split <;> rfl
    rw [hf] at h
    exact absurd h (by simp)

/-- C1 counterexample: track 1 (class 1) presents the centre sequence
{count test -1, count test +1, count test -1}; on the third frame the point
lies inside the alert polygon (alert test +1).  The claim says exited_count
is incremented exactly once regardless of the alert polygon, but the elif on
line 266 is preempted by the alert branch of line 227: exited_count stays 0
and the track stays in entered_ids. -/
theorem zone_exit_preempted_counterexample :
    (runTrack zoneInit 1 1 [(-1, -1, 0), (1, -1, 1), (-1, 1, 2)]).1.count_passed = 1 ∧
    (runTrack zoneInit 1 1 [(-1, -1, 0), (1, -1, 1), (-1, 1, 2)]).1.count_exited = 0 ∧
    1 ∈ (runTrack zoneInit 1 1 [(-1, -1, 0), (1, -1, 1), (-1, 1, 2)]).1.entered_ids := by
  refine ⟨by decide, by decide, by decide⟩

/-- C1 (amended): for the centre sequence {negative count test, count test
inside or on, strictly outside}, the engine increments entered_count exactly
once, and increments exited_count exactly once PROVIDED the final point is
also strictly outside the alert polygon; the two machines are not independent:
whenever a point lies inside or on the alert polygon the alert branch preempts
the count-zone exit transition, so exited_count never changes on such a
frame (final conjunct). -/
theorem zone_sequence_amended (s : ZoneState) (tid cls : ℤ)
    (c1 a1 c2 a2 c3 a3 : ℤ) (t1 t2 t3 : ℚ)
    (hni : tid ∉ s.entered_ids) (h1 : c1 < 0) (h2 : 0 ≤ c2) (h3 : c3 < 0)
    (ha3 : a3 < 0) :
    (runTrack s tid cls [(c1, a1, t1), (c2, a2, t2), (c3, a3, t3)]).1.count_passed
        = s.count_passed + 1 ∧
    (runTrack s tid cls [(c1, a1, t1), (c2, a2, t2), (c3, a3, t3)]).1.count_exited
        = s.count_exited + 1 ∧
    tid ∉ (runTrack s tid cls [(c1, a1, t1), (c2, a2, t2), (c3, a3, t3)]).1.entered_ids ∧
    (∀ (s2 : ZoneState) (c a : ℤ) (t : ℚ), 0 ≤ a →
      (stepTrack s2 tid cls c a t).1.count_exited = s2.count_exited) := by
  have hrun : (runTrack s tid cls [(c1, a1, t1), (c2, a2, t2), (c3, a3, t3)]).1 =
      (stepTrack (stepTrack (stepTrack s tid cls c1 a1 t1).1 tid cls c2 a2 t2).1
        tid cls c3 a3 t3).1 := by
    simp only [runTrack]
  have n1 : (stepTrack s tid cls c1 a1 t1).1.entered_ids = s.entered_ids := by
    rw [stepTrack_entered,
      if_neg (show ¬(tid ∉ s.entered_ids ∧ 0 ≤ c1) from
        fun h => absurd h.2 (not_le.mpr h1)),
      if_neg (show ¬(¬0 ≤ a1 ∧ tid ∈ s.entered_ids ∧ c1 < 0) from
        fun h => absurd h.2.1 hni)]
  have p1 : (stepTrack s tid cls c1 a1 t1).1.count_passed = s.count_passed := by
    rw [stepTrack_passed, if_neg (fun h => absurd h.2 (not_le.mpr h1))]
  have x1 : (stepTrack s tid cls c1 a1 t1).1.count_exited = s.count_exited := by
    rw [stepTrack_exited, if_neg (fun h => absurd h.2.1 hni)]
  have hcond2 : tid ∉ (stepTrack s tid cls c1 a1 t1).1.entered_ids ∧ 0 ≤ c2 :=
    ⟨by rw [n1]; exact hni, h2⟩
  have n2 : (stepTrack (stepTrack s tid cls c1 a1 t1).1 tid cls c2 a2 t2).1.entered_ids
      = insert tid s.entered_ids := by
    rw [stepTrack_entered, if_pos hcond2, n1]
  have p2 : (stepTrack (stepTrack s tid cls c1 a1 t1).1 tid cls c2 a2 t2).1.count_passed
      = s.count_passed + 1 := by
    rw [stepTrack_passed, if_pos hcond2, p1]
  have x2 : (stepTrack (stepTrack s tid cls c1 a1 t1).1 tid cls c2 a2 t2).1.count_exited
      = s.count_exited := by
    rw [stepTrack_exited, if_neg (fun h => absurd h2 (not_le.mpr h.2.2)), x1]
  have hcond3 : ¬0 ≤ a3 ∧
      tid ∈ (stepTrack (stepTrack s tid cls c1 a1 t1).1 tid cls c2 a2 t2).1.entered_ids ∧
      c3 < 0 :=
    ⟨not_le.mpr ha3, by rw [n2]; exact Finset.mem_insert_self _ _, h3⟩
  refine ⟨?_, ?_, ?_, ?_⟩
  · rw [hrun, stepTrack_passed, if_neg (fun h => h.1 hcond3.2.1), p2]
  · rw [hrun, stepTrack_exited, if_pos hcond3, x2]
  · rw [hrun, stepTrack_entered, if_neg (fun h => h.1 hcond3.2.1), if_pos hcond3, n2]
    exact Finset.not_mem_erase _ _
  · intro s2 c a t haa
    rw [stepTrack_exited, if_neg (fun h => h.1 haa)]

/-- Witness for the amended C1 theorem at a concrete run. -/
theorem zone_sequence_amended_witness :
    (1 : ℤ) ∉ zoneInit.entered_ids ∧
    (runTrack zoneInit 1 0 [(-1, -1, 0), (0, -1, 1), (-1, -1, 2)]).1.count_passed
        = zoneInit.count_passed + 1 ∧
    (runTrack zoneInit 1 0 [(-1, -1, 0), (0, -1, 1), (-1, -1, 2)]).1.count_exited
        = zoneInit.count_exited + 1 ∧
    (1 : ℤ) ∉ (runTrack zoneInit 1 0 [(-1, -1, 0), (0, -1, 1), (-1, -1, 2)]).1.entered_ids ∧
    (stepTrack zoneInit 1 0 0 0 0).1.count_exited = zoneInit.count_exited := by
  have h := zone_sequence_amended zoneInit 1 0 (-1) (-1) 0 (-1) (-1) (-1) 0 1 2
    (by decide) (by decide) (by decide) (by decide) (by decide)
  exact ⟨by decide, h.1, h.2.1, h.2.2.1, h.2.2.2 zoneInit 0 0 0 (by decide)⟩

/-- Reachability of zone states from the initial state under arbitrary
per-track frames. -/
inductive ZoneReach : ZoneState → Prop where
  | init : ZoneReach zoneInit
  | step (s : ZoneState) (tid cls cntTest alertTest : ℤ) (now : ℚ) :
      ZoneReach s → ZoneReach (stepTrack s tid cls cntTest alertTest now).1

/-- C9: in every reachable zone state, count_passed - count_exited equals the
cardinality of entered_ids and is therefore never negative; moreover the entry
transition never fires for an id already in the set and the exit transition
never fires for an id outside the set. -/
theorem current_count_matches_entered :
    (∀ s : ZoneState, ZoneReach s →
      s.count_passed - s.count_exited = (s.entered_ids.card : ℤ) ∧
      0 ≤ s.count_passed - s.count_exited) ∧
    (∀ (s : ZoneState) (tid cls c a : ℤ) (t : ℚ), tid ∈ s.entered_ids →
      (stepTrack s tid cls c a t).1.count_passed = s.count_passed) ∧
    (∀ (s : ZoneState) (tid cls c a : ℤ) (t : ℚ), tid ∉ s.entered_ids →
      (stepTrack s tid cls c a t).1.count_exited = s.count_exited) := by
  refine ⟨?_, ?_, ?_⟩
  · intro s h
    induction h with
    | init => exact ⟨by decide, by decide⟩
    | step s tid cls c a t hs ih =>
      obtain ⟨ihe, ihn⟩ := ih
      by_cases he : tid ∉ s.entered_ids ∧ 0 ≤ c
      · rw [stepTrack_passed, stepTrack_exited, stepTrack_entered, if_pos he,
          if_neg (show ¬(¬0 ≤ a ∧ tid ∈ s.entered_ids ∧ c < 0) from
            fun h => he.1 h.2.1),
          if_pos he, Finset.card_insert_of_not_mem he.1]
        constructor <;> push_cast <;> omega
      · by_cases hx : ¬0 ≤ a ∧ tid ∈ s.entered_ids ∧ c < 0
        · have hpos : 0 < s.entered_ids.card := Finset.card_pos.mpr ⟨tid, hx.2.1⟩
          rw [stepTrack_passed, stepTrack_exited, stepTrack_entered, if_neg he,
            if_pos hx, if_neg he, if_pos hx, Finset.card_erase_of_mem hx.2.1]
          constructor <;> push_cast [Nat.cast_sub hpos] <;> omega
        · rw [stepTrack_passed, stepTrack_exited, stepTrack_entered, if_neg he,
            if_neg hx, if_neg he, if_neg hx]
          exact ⟨ihe, ihn⟩
  · intro s tid cls c a t hmem
    rw [stepTrack_passed, if_neg (fun h => h.1 hmem)]
  · intro s tid cls c a t hni
    rw [stepTrack_exited, if_neg (fun h => hni h.2.1)]

/-- Witness for C9 at a concrete reachable state: one step from the initial
state that lets track 1 enter the count zone. -/
theorem current_count_matches_entered_witness :
    ((stepTrack zoneInit 1 0 1 (-1) 0).1.count_passed
        - (stepTrack zoneInit 1 0 1 (-1) 0).1.count_exited
        = ((stepTrack zoneInit 1 0 1 (-1) 0).1.entered_ids.card : ℤ) ∧
      0 ≤ (stepTrack zoneInit 1 0 1 (-1) 0).1.count_passed
        - (stepTrack zoneInit 1 0 1 (-1) 0).1.count_exited) ∧
    (1 : ℤ) ∈ (stepTrack zoneInit 1 0 1 (-1) 0).1.entered_ids ∧
    (stepTrack (stepTrack zoneInit 1 0 1 (-1) 0).1 1 0 1 (-1) 1).1.count_passed
        = (stepTrack zoneInit 1 0 1 (-1) 0).1.count_passed ∧
    (stepTrack zoneInit 2 0 1 (-1) 1).1.count_exited = zoneInit.count_exited := by
  refine ⟨current_count_matches_entered.1 _
      (ZoneReach.step _ _ _ _ _ _ ZoneReach.init), by decide, ?_, ?_⟩
  · exact current_count_matches_entered.2.1 _ 1 0 1 (-1) 1 (by decide)
  · exact current_count_matches_entered.2.2 _ 2 0 1 (-1) 1 (by decide)

/-! ## The once-per-id alert behaviour -/

/-- Expected alert flags for a track whose entry was recorded at t0 and that
stays inside the alert zone: false until the first frame whose time exceeds
t0 by more than the 2-second threshold, true on that frame, false forever
after. -/
def alertSpec (t0 : ℚ) : List ℚ → List Bool
  | [] => []
  | t :: ts => if 2 < t - t0 then true :: ts.map (fun _ => false)
               else false :: alertSpec t0 ts

theorem stepTrack_warned_of_emit_false (s : ZoneState) (tid cls c a : ℤ)
    (now : ℚ) (h : (stepTrack s tid cls c a now).2 = false) :
    (stepTrack s tid cls c a now).1.warned_ids = s.warned_ids := by
  revert h
  unfold stepTrack alertExitStep
  repeat' split
  all_goals intro h
  all_goals first
    | (exact entryStep_warned s tid c)
    | rfl
    | simp at h

theorem runTrack_all_false_of_warned (tid cls : ℤ) :
    ∀ (fs : List (ℤ × ℤ × ℚ)) (s : ZoneState), tid ∈ s.warned_ids →
      (runTrack s tid cls fs).2 = fs.map fun _ => false := by
  intro fs
  induction fs with
  | nil => intro s _; rfl
  | cons f fs ih =>
    intro s hw
    simp only [runTrack, List.map_cons]
    rw [stepTrack_emit_false_of_warned s tid cls f.1 f.2.1 f.2.2 hw,
      ih _ (stepTrack_warned_subset s tid cls f.1 f.2.1 f.2.2 hw)]

theorem runTrack_not_eligible (tid cls : ℤ) (hcls : cls ∉ ALERT_OBJ_LIST) :
    ∀ (fs : List (ℤ × ℤ × ℚ)) (s : ZoneState),
      (runTrack s tid cls fs).2 = fs.map fun _ => false := by
  intro fs
  induction fs with
  | nil => intro s; rfl
  | cons f fs ih =>
    intro s
    simp only [runTrack, List.map_cons]
    rw [stepTrack_emit_not_eligible s tid cls f.1 f.2.1 f.2.2 hcls, ih]

theorem count_true_map_false {α : Type} (l : List α) :
    (l.map fun _ => false).count true = 0 := by
  induction l with
  | nil => rfl
  | cons a l ih => simpa [List.count_cons] using ih

theorem runTrack_count_le_one (tid cls : ℤ) :
    ∀ (fs : List (ℤ × ℤ × ℚ)) (s : ZoneState), tid ∉ s.warned_ids →
      (runTrack s tid cls fs).2.count true ≤ 1 := by
  intro fs
  induction fs with
  | nil => intro s _; simp [runTrack]
  | cons f fs ih =>
    intro s hw
    simp only [runTrack]
    cases he : (stepTrack s tid cls f.1 f.2.1 f.2.2).2 with
    | false =>
      have hwp : tid ∉ (stepTrack s tid cls f.1 f.2.1 f.2.2).1.warned_ids := by
        rw [stepTrack_warned_of_emit_false s tid cls f.1 f.2.1 f.2.2 he]
        exact hw
      simpa [List.count_cons] using ih _ hwp
    | true =>
      have hmem := (stepTrack_emit_true s tid cls f.1 f.2.1 f.2.2 he).2
      rw [runTrack_all_false_of_warned tid cls fs _ hmem]
      simp [List.count_cons, List.count_replicate]

theorem runTrack_alert_spec (tid cls : ℤ) (hcls : cls ∈ ALERT_OBJ_LIST) :
    ∀ (fs : List (ℤ × ℤ × ℚ)) (s : ZoneState) (t0 : ℚ),
      s.entry_time tid = some t0 → tid ∉ s.warned_ids →
      (∀ f ∈ fs, 0 ≤ f.2.1) →
      (runTrack s tid cls fs).2 = alertSpec t0 (fs.map fun f => f.2.2) := by
  intro fs
  induction fs with
  | nil => intro s t0 _ _ _; rfl
  | cons f fs ih =>
    intro s t0 het hw hall
    have ha : 0 ≤ f.2.1 := hall f (List.mem_cons_self _ _)
    simp only [runTrack, List.map_cons, alertSpec]
    by_cases hgt : 2 < f.2.2 - t0
    · rw [if_pos hgt,
        stepTrack_alert_fire s tid cls f.1 f.2.1 f.2.2 t0 ha hcls het hgt hw,
        runTrack_all_false_of_warned tid cls fs _ (Finset.mem_insert_self _ _)]
      simp [List.map_map, Function.comp]
    · rw [if_neg hgt,
        stepTrack_alert_wait s tid cls f.1 f.2.1 f.2.2 t0 ha hcls het hgt]
      have h1 : (entryStep s tid f.1).entry_time tid = some t0 := by
        rw [entryStep_entry_time]; exact het
      have h2 : tid ∉ (entryStep s tid f.1).warned_ids := by
        rw [entryStep_warned]; exact hw
      rw [ih _ t0 h1 h2 (fun g hg => hall g (List.mem_cons_of_mem _ hg))]

theorem alertSpec_count (t0 : ℚ) : ∀ ts : List ℚ,
    (alertSpec t0 ts).count true = if ∃ t ∈ ts, 2 < t - t0 then 1 else 0 := by
  intro ts
  induction ts with
  | nil => simp [alertSpec]
  | cons t ts ih =>
    simp only [alertSpec]
    by_cases hgt : 2 < t - t0
    · rw [if_pos hgt, if_pos ⟨t, List.mem_cons_self _ _, hgt⟩]
      simp [List.count_cons, List.count_replicate]
    · have hiff : (∃ u ∈ t :: ts, 2 < u - t0) ↔ (∃ u ∈ ts, 2 < u - t0) := by
        constructor
        · rintro ⟨u, hu, hgt'⟩
          rcases List.mem_cons.mp hu with rfl | hu'
          · exact absurd hgt' hgt
          · exact ⟨u, hu', hgt'⟩
        · rintro ⟨u, hu, hgt'⟩
          exact ⟨u, List.mem_cons_of_mem _ hu, hgt'⟩
      rw [if_neg hgt, if_congr hiff rfl rfl, ← ih]
      simp [List.count_cons]

/-- C2: a track of alert-eligible class whose points stay inside or on the
alert polygon has its entry recorded at the first frame's time t0 and emits no
alert there; over the following frames the alert flag sequence is exactly
`alertSpec t0` of the frame times — true precisely on the first frame whose
time exceeds t0 by more than 2 seconds — and the total number of alerts is 1
if some frame crosses the threshold and 0 otherwise.  In full generality a
track id never emits more than one alert while unwarned, and a track whose
class is not alert-eligible never emits an alert regardless of dwell time. -/
theorem alert_fires_once_at_threshold :
    (∀ (s : ZoneState) (tid cls c a : ℤ) (t0 : ℚ) (fs : List (ℤ × ℤ × ℚ)),
      cls ∈ ALERT_OBJ_LIST → s.entry_time tid = none → tid ∉ s.warned_ids →
      0 ≤ a → (∀ f ∈ fs, 0 ≤ f.2.1) →
      (runTrack s tid cls ((c, a, t0) :: fs)).2 =
        false :: alertSpec t0 (fs.map fun f => f.2.2) ∧
      (runTrack s tid cls ((c, a, t0) :: fs)).2.count true =
        (if ∃ t ∈ fs.map (fun f : ℤ × ℤ × ℚ => f.2.2), 2 < t - t0 then 1 else 0)) ∧
    (∀ (s : ZoneState) (tid cls : ℤ) (fs : List (ℤ × ℤ × ℚ)),
      tid ∉ s.warned_ids → (runTrack s tid cls fs).2.count true ≤ 1) ∧
    (∀ (s : ZoneState) (tid cls : ℤ) (fs : List (ℤ × ℤ × ℚ)),
      cls ∉ ALERT_OBJ_LIST → (runTrack s tid cls fs).2 = fs.map fun _ => false) := by
  refine ⟨?_, fun s tid cls fs h => runTrack_count_le_one tid cls fs s h,
    fun s tid cls fs h => runTrack_not_eligible tid cls h fs s⟩
  intro s tid cls c a t0 fs hcls het hw ha hall
  have hchar : (runTrack s tid cls ((c, a, t0) :: fs)).2 =
      false :: alertSpec t0 (fs.map fun f => f.2.2) := by
    simp only [runTrack]
    rw [stepTrack_alert_start s tid cls c a t0 ha hcls het]
    have h1 : (fun k => if k = tid then some t0 else s.entry_time k) tid = some t0 := by
      simp
    have h2 : tid ∉ ({ entryStep s tid c with
        entry_time := fun k => if k = tid then some t0 else s.entry_time k } :
          ZoneState).warned_ids := by
      show tid ∉ (entryStep s tid c).warned_ids
      rw [entryStep_warned]
      exact hw
    rw [runTrack_alert_spec tid cls hcls fs _ t0 h1 h2 hall]
  refine ⟨hchar, ?_⟩
  rw [hchar]
  simp only [List.count_cons, alertSpec_count]
  simp

/-- Witness for C2 at a concrete run: class 0 stays inside the alert zone at
times 0, 1, 3, 4; the alert fires exactly on the t = 3 frame; class 5 never
fires. -/
theorem alert_fires_once_at_threshold_witness :
    ((0 : ℤ) ∈ ALERT_OBJ_LIST ∧ zoneInit.entry_time 1 = none ∧
      (1 : ℤ) ∉ zoneInit.warned_ids) ∧
    (runTrack zoneInit 1 0 [(-1, 0, 0), (-1, 0, 1), (-1, 0, 3), (-1, 0, 4)]).2 =
      false :: alertSpec 0 [1, 3, 4] ∧
    (runTrack zoneInit 1 0 [(-1, 0, 0), (-1, 0, 1), (-1, 0, 3), (-1, 0, 4)]).2.count
      true = 1 ∧
    (runTrack zoneInit 1 5 [(-1, 0, 0), (-1, 0, 10)]).2 = [false, false] := by
  have h := alert_fires_once_at_threshold
  have h1 := h.1 zoneInit 1 0 (-1) 0 0 [(-1, 0, 1), (-1, 0, 3), (-1, 0, 4)]
    (by decide) rfl (by decide) (by decide) (by decide)
  refine ⟨⟨by decide, rfl, by decide⟩, h1.1, ?_, ?_⟩
  · rw [h1.2]
    decide
  · exact h.2.2 zoneInit 1 5 [(-1, 0, 0), (-1, 0, 10)] (by decide)

/-! ## SpeedAnalyzer (traffic_detection_system.py lines 25-111)

Positions and timestamps are modelled over ℝ because np.linalg.norm takes a
square root; the definitions of this section are therefore noncomputable and
branch conditions are decided classically.  Python dictionaries are modelled
as association lists in insertion order: lookup scans from the front, and
assignment replaces in place or appends. -/

def dictGet {α : Type} : List (ℤ × α) → ℤ → Option α
  | [], _ => none
  | p :: rest, k => if p.1 = k then some p.2 else dictGet rest k

def dictSet {α : Type} : List (ℤ × α) → ℤ → α → List (ℤ × α)
  | [], k, v => [(k, v)]
  | p :: rest, k, v => if p.1 = k then (k, v) :: rest else p :: dictSet rest k v

theorem dictGet_dictSet {α : Type} (m : List (ℤ × α)) (k : ℤ) (v : α) :
    dictGet (dictSet m k v) k = some v := by
  induction m with
  | nil => simp [dictGet, dictSet]
  | cons p rest ih =>
    by_cases h : p.1 = k
    · simp [dictGet, dictSet, h]
    · simp [dictGet, dictSet, h, ih]

theorem dictSet_mem {α : Type} (m : List (ℤ × α)) (k : ℤ) (v : α) :
    ∀ p ∈ dictSet m k v, p.2 = v ∨ p ∈ m := by
  induction m with
  | nil => intro p hp; simp [dictSet] at hp; simp [hp]
  | cons q rest ih =>
    intro p hp
    by_cases h : q.1 = k
    · simp only [dictSet, if_pos h] at hp
      rcases List.mem_cons.mp hp with rfl | hp'
      · exact Or.inl rfl
      · exact Or.inr (List.mem_cons_of_mem _ hp')
    · simp only [dictSet, if_neg h] at hp
      rcases List.mem_cons.mp hp with rfl | hp'
      · exact Or.inr (List.mem_cons_self _ _)
      · rcases ih p hp' with h' | h'
        · exact Or.inl h'
        · exact Or.inr (List.mem_cons_of_mem _ h')

theorem dictGet_mem {α : Type} (m : List (ℤ × α)) (k : ℤ) (v : α)
    (h : dictGet m k = some v) : (k, v) ∈ m := by
  induction m with
  | nil => simp [dictGet] at h
  | cons p rest ih =>
    by_cases hk : p.1 = k
    · simp only [dictGet, if_pos hk] at h
      obtain rfl := Option.some_injective _ h
      have he : (k, p.2) = p := by rw [← hk]
      rw [he]
      exact List.mem_cons_self _ _
    · simp only [dictGet, if_neg hk] at h
      exact List.mem_cons_of_mem _ (ih h)

/-- The per-track record of SpeedAnalyzer.tracks (lines 59-66): previous
position and time, the 5-slot speed window, its write cursor, last-seen time
and the list of all positions. -/
structure TrackData where
  prev_pos : ℝ × ℝ
  prev_time : ℝ
  speeds : List ℝ
  speed_index : ℕ
  last_seen : ℝ
  positions : List (ℝ × ℝ)

/-- The analyzer state (lines 36-40): tracks, smoothed speeds, the
pixels-per-meter constant and the cumulative set of seen ids. -/
structure SpeedAnalyzer where
  tracks : List (ℤ × TrackData)
  speeds : List (ℤ × ℝ)
  pixels_per_meter : ℝ
  all_tracked_vehicles : Finset ℤ

/-- SpeedAnalyzer.__init__ (lines 36-40): stores the constant with no
validation whatsoever; construction never fails. -/
def SpeedAnalyzer.init (ppm : ℝ) : SpeedAnalyzer :=
  { tracks := [], speeds := [], pixels_per_meter := ppm,
    all_tracked_vehicles := ∅ }

/-- The instantaneous speed of lines 79-82: euclidean pixel distance divided
by the pixels-per-meter constant and the time difference, converted to km/h. -/
noncomputable def instSpeed (ppm : ℝ) (prev cur : ℝ × ℝ) (dt : ℝ) : ℝ :=
  Real.sqrt ((cur.1 - prev.1) ^ 2 + (cur.2 - prev.2) ^ 2) / ppm / dt * 3.6

/-- SpeedAnalyzer.update (lines 42-98).  A new id gets a fresh record and no
speed is computed.  For a known id, last_seen and positions are written first
(lines 71-72); if the time difference is at most 0.001 s the method returns
there (line 75-76) without advancing prev_pos/prev_time; otherwise the speed
is computed, and only a value inside (0, 200) km/h is written into the 5-slot
window (cursor advancing mod its length) with the smoothed speed recomputed
as the mean of the positive slots (lines 84-95); prev_pos/prev_time are
advanced in both cases (lines 97-98). -/
noncomputable def SpeedAnalyzer.update (sa : SpeedAnalyzer) (tid : ℤ)
    (center : ℝ × ℝ) (timestamp : ℝ) : SpeedAnalyzer :=
  let sa0 := { sa with all_tracked_vehicles := insert tid sa.all_tracked_vehicles }
  match dictGet sa0.tracks tid with
  | none =>
      let fresh : TrackData :=
        { prev_pos := center, prev_time := timestamp,
          speeds := List.replicate 5 0, speed_index := 0,
          last_seen := timestamp, positions := [center] }
      { sa0 with tracks := dictSet sa0.tracks tid fresh }
  | some td =>
      let td1 := { td with last_seen := timestamp,
                           positions := td.positions ++ [center] }
      if timestamp - td.prev_time ≤ 0.001 then
        { sa0 with tracks := dictSet sa0.tracks tid td1 }
      else
        let speed := instSpeed sa0.pixels_per_meter td.prev_pos center
          (timestamp - td.prev_time)
        if 0 < speed ∧ speed < 200 then
          let buf := td1.speeds.set td1.speed_index speed
          let valid := buf.filter fun x => decide (0 < x)
          let smoothed : ℝ :=
            if 0 < valid.length then valid.sum / valid.length else 0
          let td2 : TrackData :=
            { td1 with speeds := buf,
                       speed_index := (td1.speed_index + 1) % buf.length,
                       prev_pos := center, prev_time := timestamp }
          { sa0 with tracks := dictSet sa0.tracks tid td2,
                     speeds := dictSet sa0.speeds tid smoothed }
        else
          let td2 : TrackData :=
            { td1 with prev_pos := center, prev_time := timestamp }
          { sa0 with tracks := dictSet sa0.tracks tid td2 }

/-- calculate_average_speed (lines 100-107): mean of the positive stored
smoothed speeds, 0 when the dict is empty or nothing is positive. -/
noncomputable def SpeedAnalyzer.calculate_average_speed (sa : SpeedAnalyzer) : ℝ :=
  if sa.speeds = [] then 0
  else
    let valid := (sa.speeds.map fun p => p.2).filter fun v => decide (0 < v)
    if valid = [] then 0 else valid.sum / valid.length

/-- get_vehicle_count (lines 109-111). -/
def SpeedAnalyzer.get_vehicle_count (sa : SpeedAnalyzer) : ℕ :=
  sa.all_tracked_vehicles.card

/-- States reachable from a freshly constructed analyzer by update calls. -/
inductive SAReach : SpeedAnalyzer → Prop where
  | init (ppm : ℝ) : SAReach (SpeedAnalyzer.init ppm)
  | step (sa : SpeedAnalyzer) (tid : ℤ) (center : ℝ × ℝ) (timestamp : ℝ) :
      SAReach sa → SAReach (sa.update tid center timestamp)

/-! ## Branch equations of update -/

/-- The instantaneous speed computed by an update for a known track. -/
noncomputable def speedOf (sa : SpeedAnalyzer) (td : TrackData)
    (center : ℝ × ℝ) (timestamp : ℝ) : ℝ :=
  instSpeed sa.pixels_per_meter td.prev_pos center (timestamp - td.prev_time)

/-- The 5-slot window after writing a sample at the cursor. -/
def bufOf (td : TrackData) (v : ℝ) : List ℝ :=
  td.speeds.set td.speed_index v

/-- np.mean of the positive slots, 0 if none (lines 91-95). -/
noncomputable def smoothedOf (buf : List ℝ) : ℝ :=
  if 0 < (buf.filter fun x => decide (0 < x)).length
  then (buf.filter fun x => decide (0 < x)).sum /
    (buf.filter fun x => decide (0 < x)).length
  else 0

theorem update_eq_new (sa : SpeedAnalyzer) (tid : ℤ) (center : ℝ × ℝ)
    (timestamp : ℝ) (hget : dictGet sa.tracks tid = none) :
    sa.update tid center timestamp =
      { sa with
        all_tracked_vehicles := insert tid sa.all_tracked_vehicles,
        tracks := dictSet sa.tracks tid
          ({ prev_pos := center, prev_time := timestamp,
             speeds := List.replicate 5 0, speed_index := 0,
             last_seen := timestamp, positions := [center] }) } := by
  unfold SpeedAnalyzer.update
  simp only [hget]

theorem update_eq_dup (sa : SpeedAnalyzer) (tid : ℤ) (center : ℝ × ℝ)
    (timestamp : ℝ) (td : TrackData) (hget : dictGet sa.tracks tid = some td)
    (hdt : timestamp - td.prev_time ≤ 0.001) :
    sa.update tid center timestamp =
      { sa with
        all_tracked_vehicles := insert tid sa.all_tracked_vehicles,
        tracks := dictSet sa.tracks tid
          ({ td with last_seen := timestamp,
                     positions := td.positions ++ [center] }) } := by
  unfold SpeedAnalyzer.update
  simp only [hget]
  rw [if_pos hdt]

theorem update_eq_pass (sa : SpeedAnalyzer) (tid : ℤ) (center : ℝ × ℝ)
    (timestamp : ℝ) (td : TrackData) (hget : dictGet sa.tracks tid = some td)
    (hdt : ¬timestamp - td.prev_time ≤ 0.001)
    (hspd : 0 < speedOf sa td center timestamp ∧
      speedOf sa td center timestamp < 200) :
    sa.update tid center timestamp =
      { sa with
        all_tracked_vehicles := insert tid sa.all_tracked_vehicles,
        tracks := dictSet sa.tracks tid
          ({ prev_pos := center, prev_time := timestamp,
             speeds := bufOf td (speedOf sa td center timestamp),
             speed_index := (td.speed_index + 1) %
               (bufOf td (speedOf sa td center timestamp)).length,
             last_seen := timestamp, positions := td.positions ++ [center] }),
        speeds := dictSet sa.speeds tid
          (smoothedOf (bufOf td (speedOf sa td center timestamp))) } := by
  unfold SpeedAnalyzer.update
  simp only [hget]
  rw [if_neg hdt,
    show instSpeed sa.pixels_per_meter td.prev_pos center (timestamp - td.prev_time)
      = speedOf sa td center timestamp from rfl,
    if_pos hspd]
  rfl

theorem update_eq_fail (sa : SpeedAnalyzer) (tid : ℤ) (center : ℝ × ℝ)
    (timestamp : ℝ) (td : TrackData) (hget : dictGet sa.tracks tid = some td)
    (hdt : ¬timestamp - td.prev_time ≤ 0.001)
    (hspd : ¬(0 < speedOf sa td center timestamp ∧
      speedOf sa td center timestamp < 200)) :
    sa.update tid center timestamp =
      { sa with
        all_tracked_vehicles := insert tid sa.all_tracked_vehicles,
        tracks := dictSet sa.tracks tid
          ({ td with last_seen := timestamp,
                     positions := td.positions ++ [center],
                     prev_pos := center, prev_time := timestamp }) } := by
  unfold SpeedAnalyzer.update
  simp only [hget]
  rw [if_neg hdt,
    show instSpeed sa.pixels_per_meter td.prev_pos center (timestamp - td.prev_time)
      = speedOf sa td center timestamp from rfl,
    if_neg hspd]

/-! ## Invariants of reachable analyzer states -/

/-- Every stored smoothed speed is positive, and every track keeps a 5-slot
window with an in-range cursor. -/
def SAInv (sa : SpeedAnalyzer) : Prop :=
  (∀ p ∈ sa.speeds, 0 < p.2) ∧
  (∀ p ∈ sa.tracks, p.2.speeds.length = 5 ∧ p.2.speed_index < 5)

theorem mem_bufOf (td : TrackData) (v : ℝ) (h : td.speed_index < td.speeds.length) :
    v ∈ bufOf td v := by
  unfold bufOf
  have hlen : td.speed_index < (td.speeds.set td.speed_index v).length := by
    simpa using h
  have hget : (td.speeds.set td.speed_index v)[td.speed_index] = v :=
    List.getElem_set_self hlen
  have hmem := List.getElem_mem hlen
  rwa [hget] at hmem

theorem smoothedOf_pos_of_mem (buf : List ℝ) (v : ℝ) (hv : 0 < v)
    (hmem : v ∈ buf) : 0 < smoothedOf buf := by
  unfold smoothedOf
  have hvmem : v ∈ buf.filter fun x => decide (0 < x) :=
    List.mem_filter.mpr ⟨hmem, by simpa using hv⟩
  have hne : (buf.filter fun x => decide (0 < x)) ≠ [] := List.ne_nil_of_mem hvmem
  have hlen : 0 < (buf.filter fun x => decide (0 < x)).length :=
    List.length_pos.mpr hne
  rw [if_pos hlen]
  apply div_pos
  · refine List.sum_pos _ ?_ hne
    intro x hx
    simpa using List.of_mem_filter hx
  · exact_mod_cast hlen

theorem saReach_inv : ∀ sa : SpeedAnalyzer, SAReach sa → SAInv sa := by
  intro sa h
  induction h with
  | init ppm =>
    exact ⟨fun p hp => absurd hp (List.not_mem_nil p),
      fun p hp => absurd hp (List.not_mem_nil p)⟩
  | step sa tid center timestamp hs ih =>
    obtain ⟨ihs, iht⟩ := ih
    cases hget : dictGet sa.tracks tid with
    | none =>
      rw [update_eq_new sa tid center timestamp hget]
      refine ⟨ihs, ?_⟩
      intro p hp
      rcases dictSet_mem _ _ _ p hp with h' | h'
      · rw [h']
        exact ⟨by simp, by norm_num⟩
      · exact iht p h'
    | some td =>
      have htd := iht (tid, td) (dictGet_mem _ _ _ hget)
      by_cases hdt : timestamp - td.prev_time ≤ 0.001
      · rw [update_eq_dup sa tid center timestamp td hget hdt]
        refine ⟨ihs, ?_⟩
        intro p hp
        rcases dictSet_mem _ _ _ p hp with h' | h'
        · rw [h']
          exact htd
        · exact iht p h'
      · by_cases hspd : 0 < speedOf sa td center timestamp ∧
            speedOf sa td center timestamp < 200
        · rw [update_eq_pass sa tid center timestamp td hget hdt hspd]
          have hlen : (bufOf td (speedOf sa td center timestamp)).length = 5 := by
            unfold bufOf
            rw [List.length_set]
            exact htd.1
          have hmem : speedOf sa td center timestamp ∈
              bufOf td (speedOf sa td center timestamp) := by
            refine mem_bufOf td _ ?_
            rw [htd.1]
            exact htd.2
          constructor
          · intro p hp
            rcases dictSet_mem _ _ _ p hp with h' | h'
            · rw [h']
              exact smoothedOf_pos_of_mem _ _ hspd.1 hmem
            · exact ihs p h'
          · intro p hp
            rcases dictSet_mem _ _ _ p hp with h' | h'
            · rw [h']
              refine ⟨hlen, ?_⟩
              show (td.speed_index + 1) %
                (bufOf td (speedOf sa td center timestamp)).length < 5
              rw [hlen]
              exact Nat.mod_lt _ (by norm_num)
            · exact iht p h'
        · rw [update_eq_fail sa tid center timestamp td hget hdt hspd]
          refine ⟨ihs, ?_⟩
          intro p hp
          rcases dictSet_mem _ _ _ p hp with h' | h'
          · rw [h']
            exact htd
          · exact iht p h'

/-! ## Concrete analyzer states for witnesses -/

/-- An analyzer that has seen track 1 once, at (0, 0) and time 0. -/
noncomputable def wSA : SpeedAnalyzer := (SpeedAnalyzer.init 5).update 1 (0, 0) 0

/-- The record created for that first sighting. -/
def wTD : TrackData :=
  { prev_pos := (0, 0), prev_time := 0, speeds := List.replicate 5 0,
    speed_index := 0, last_seen := 0, positions := [(0, 0)] }

theorem wSA_tracks : dictGet wSA.tracks 1 = some wTD := by
  unfold wSA
  rw [update_eq_new (SpeedAnalyzer.init 5) 1 (0, 0) 0 rfl]
  exact dictGet_dictSet _ _ _

theorem wSA_ppm : wSA.pixels_per_meter = 5 := by
  unfold wSA
  rw [update_eq_new (SpeedAnalyzer.init 5) 1 (0, 0) 0 rfl]
  rfl

theorem wSA_speeds : wSA.speeds = [] := by
  unfold wSA
  rw [update_eq_new (SpeedAnalyzer.init 5) 1 (0, 0) 0 rfl]
  rfl

/-- C6: for a known track id, a timestamp whose difference from the stored
previous time is at most 0.001 s makes update skip the speed computation:
previous position, previous time, the speed window and its cursor are left
unchanged (only last_seen and the positions list are written, exactly as the
code mutates them before the dt guard), the smoothed-speed dict is untouched,
and the id is still recorded in the all-seen set.  The embedding is a total
function, so duplicate or non-monotonic timestamps never produce a fault. -/
theorem update_absorbs_duplicate_timestamp (sa : SpeedAnalyzer) (tid : ℤ)
    (center : ℝ × ℝ) (timestamp : ℝ) (td : TrackData)
    (hget : dictGet sa.tracks tid = some td)
    (hdt : timestamp - td.prev_time ≤ 0.001) :
    dictGet (sa.update tid center timestamp).tracks tid =
      some ({ td with last_seen := timestamp,
                      positions := td.positions ++ [center] }) ∧
    (sa.update tid center timestamp).speeds = sa.speeds ∧
    tid ∈ (sa.update tid center timestamp).all_tracked_vehicles := by
  rw [update_eq_dup sa tid center timestamp td hget hdt]
  exact ⟨dictGet_dictSet _ _ _, rfl, Finset.mem_insert_self _ _⟩

/-- Witness for C6: a second sighting of track 1 with the same timestamp 0. -/
theorem update_absorbs_duplicate_timestamp_witness :
    dictGet wSA.tracks 1 = some wTD ∧
    (0 : ℝ) - wTD.prev_time ≤ 0.001 ∧
    dictGet (wSA.update 1 (7, 8) 0).tracks 1 =
      some ({ wTD with last_seen := 0,
                       positions := wTD.positions ++ [(7, 8)] }) ∧
    (wSA.update 1 (7, 8) 0).speeds = wSA.speeds ∧
    (1 : ℤ) ∈ (wSA.update 1 (7, 8) 0).all_tracked_vehicles := by
  have hdt : (0 : ℝ) - wTD.prev_time ≤ 0.001 := by
    show (0 : ℝ) - 0 ≤ 0.001
    norm_num
  have h := update_absorbs_duplicate_timestamp wSA 1 (7, 8) 0 wTD wSA_tracks hdt
  exact ⟨wSA_tracks, hdt, h.1, h.2.1, h.2.2⟩

/-- C5: for a known track id with dt above the guard, an instantaneous speed
outside (0, 200) km/h leaves the 5-slot window, its cursor and the stored
smoothed-speed dict unchanged, while previous position and previous time are
still advanced to the current values. -/
theorem update_discards_out_of_range (sa : SpeedAnalyzer) (tid : ℤ)
    (center : ℝ × ℝ) (timestamp : ℝ) (td : TrackData)
    (hget : dictGet sa.tracks tid = some td)
    (hdt : 0.001 < timestamp - td.prev_time)
    (hspd : ¬(0 < instSpeed sa.pixels_per_meter td.prev_pos center
        (timestamp - td.prev_time) ∧
      instSpeed sa.pixels_per_meter td.prev_pos center
        (timestamp - td.prev_time) < 200)) :
    dictGet (sa.update tid center timestamp).tracks tid =
      some ({ td with last_seen := timestamp,
                      positions := td.positions ++ [center],
                      prev_pos := center, prev_time := timestamp }) ∧
    (sa.update tid center timestamp).speeds = sa.speeds := by
  rw [update_eq_fail sa tid center timestamp td hget (not_le.mpr hdt) hspd]
  exact ⟨dictGet_dictSet _ _ _, rfl⟩

/-- Witness for C5: track 1 jumps from (0, 0) to (300, 400) in one second
with 5 pixels per meter, an instantaneous speed of 360 km/h, which is
discarded while prev_pos/prev_time advance. -/
theorem update_discards_out_of_range_witness :
    dictGet wSA.tracks 1 = some wTD ∧
    (0.001 : ℝ) < 1 - wTD.prev_time ∧
    instSpeed wSA.pixels_per_meter wTD.prev_pos (300, 400) (1 - wTD.prev_time)
      = 360 ∧
    dictGet (wSA.update 1 (300, 400) 1).tracks 1 =
      some ({ wTD with last_seen := 1,
                       positions := wTD.positions ++ [(300, 400)],
                       prev_pos := (300, 400), prev_time := 1 }) ∧
    (wSA.update 1 (300, 400) 1).speeds = wSA.speeds := by
  have hdt : (0.001 : ℝ) < 1 - wTD.prev_time := by
    show (0.001 : ℝ) < 1 - 0
    norm_num
  have hval : instSpeed wSA.pixels_per_meter wTD.prev_pos (300, 400)
      (1 - wTD.prev_time) = 360 := by
    rw [wSA_ppm]
    show Real.sqrt ((300 - 0) ^ 2 + (400 - 0) ^ 2) / 5 / (1 - 0) * 3.6 = 360
    rw [show ((300 : ℝ) - 0) ^ 2 + ((400 : ℝ) - 0) ^ 2 = 500 ^ 2 by norm_num,
      Real.sqrt_sq (by norm_num : (0 : ℝ) ≤ 500)]
    norm_num
  have hspd : ¬(0 < instSpeed wSA.pixels_per_meter wTD.prev_pos (300, 400)
      (1 - wTD.prev_time) ∧
      instSpeed wSA.pixels_per_meter wTD.prev_pos (300, 400)
        (1 - wTD.prev_time) < 200) := by
    rw [hval]
    intro hcon
    exact absurd hcon.2 (by norm_num)
  have h := update_discards_out_of_range wSA 1 (300, 400) 1 wTD wSA_tracks hdt hspd
  exact ⟨wSA_tracks, hdt, hval, h.1, h.2⟩

/-- C10: in every reachable analyzer state each stored smoothed speed is
strictly positive — the smoothed value is recomputed only right after a sample
in (0, 200) km/h is written into the window, so the mean is over a nonempty
list of positive entries and the zero fallback branch never contributes — and
therefore the non-zero filter of calculate_average_speed never excludes a
stored smoothed speed. -/
theorem smoothed_speed_positive (sa : SpeedAnalyzer) (h : SAReach sa) :
    (∀ k v, dictGet sa.speeds k = some v → 0 < v) ∧
    ((sa.speeds.map fun p => p.2).filter (fun v => decide (0 < v)) =
      sa.speeds.map fun p => p.2) := by
  have hinv := saReach_inv sa h
  refine ⟨?_, ?_⟩
  · intro k v hkv
    exact hinv.1 (k, v) (dictGet_mem _ _ _ hkv)
  · rw [List.filter_eq_self]
    intro x hx
    obtain ⟨p, hp, rfl⟩ := List.mem_map.mp hx
    simpa using hinv.1 p hp

/-- Witness for C10 at a concrete reachable state: track 1 moves from (0, 0)
to (3, 4) in one second, storing a smoothed speed, and the non-zero filter
keeps every stored value. -/
theorem smoothed_speed_positive_witness :
    (((wSA.update 1 (3, 4) 1).speeds.map fun p => p.2).filter
        (fun v => decide (0 < v)) =
      (wSA.update 1 (3, 4) 1).speeds.map fun p => p.2) :=
  (smoothed_speed_positive (wSA.update 1 (3, 4) 1)
    (SAReach.step _ _ _ _ (SAReach.step _ _ _ _ (SAReach.init 5)))).2

/-! ## Per-track memory bounds (object_tracking.py lines 207-212 and the
SpeedAnalyzer positions list) -/

/-- The track-history update of process_frame lines 207-212: append the point,
then pop the front once the list exceeds 30 entries. -/
def pushTrack (track : List (ℚ × ℚ)) (p : ℚ × ℚ) : List (ℚ × ℚ) :=
  let t := track ++ [p]
  if 30 < t.length then t.tail else t

theorem pushTrack_bound (track : List (ℚ × ℚ)) (p : ℚ × ℚ)
    (h : track.length ≤ 30) : (pushTrack track p).length ≤ 30 := by
  unfold pushTrack
  by_cases h30 : 30 < (track ++ [p]).length
  · rw [if_pos h30]
    simp only [List.length_tail, List.length_append, List.length_cons,
      List.length_nil]
    omega
  · rw [if_neg h30]
    omega

/-- Repeated sightings of the same track at a frozen timestamp. -/
noncomputable def repeatUpd (sa : SpeedAnalyzer) (tid : ℤ) (c : ℝ × ℝ)
    (t : ℝ) : ℕ → SpeedAnalyzer
  | 0 => sa
  | n + 1 => repeatUpd (sa.update tid c t) tid c t n

theorem repeatUpd_positions (tid : ℤ) (c : ℝ × ℝ) (t : ℝ) :
    ∀ (n : ℕ) (sa : SpeedAnalyzer) (td : TrackData),
      dictGet sa.tracks tid = some td → td.prev_time = t →
      ∃ td', dictGet (repeatUpd sa tid c t n).tracks tid = some td' ∧
        td'.positions.length = td.positions.length + n ∧ td'.prev_time = t := by
  intro n
  induction n with
  | zero =>
    intro sa td hget hpt
    exact ⟨td, hget, by omega, hpt⟩
  | succ n ih =>
    intro sa td hget hpt
    have hdt : t - td.prev_time ≤ 0.001 := by
      rw [hpt]
      norm_num
    have hget' : dictGet (sa.update tid c t).tracks tid =
        some ({ td with last_seen := t, positions := td.positions ++ [c] }) := by
      rw [update_eq_dup sa tid c t td hget hdt]
      exact dictGet_dictSet _ _ _
    obtain ⟨td', h1, h2, h3⟩ := ih (sa.update tid c t)
      ({ td with last_seen := t, positions := td.positions ++ [c] }) hget' hpt
    refine ⟨td', h1, ?_, h3⟩
    rw [h2]
    simp only [List.length_append, List.length_cons, List.length_nil]
    omega

/-- C4 counterexample: after the first sighting of track 1 and 31 further
sightings, the SpeedAnalyzer positions list for that track holds 32 entries —
more than the claimed 30-point cap — and one more entry is added on every
further sighting, so per-track memory does grow without bound. -/
theorem positions_grow_unbounded_counterexample :
    (dictGet (repeatUpd wSA 1 (0, 0) 0 31).tracks 1).map
      (fun td => td.positions.length) = some 32 := by
  obtain ⟨td', h1, h2, _⟩ := repeatUpd_positions 1 (0, 0) 0 31 wSA wTD wSA_tracks rfl
  rw [h1, Option.map_some', h2]
  rfl

/-- C4 (amended): the per-frame track history is capped at 30 points and each
track's speed window always holds exactly 5 slots, but the SpeedAnalyzer also
keeps a per-track positions list that gains one entry on every subsequent
sighting of the id with no eviction, so per-track memory does grow without
bound for long-running streams. -/
theorem per_track_state_bounds :
    (∀ (track : List (ℚ × ℚ)) (p : ℚ × ℚ), track.length ≤ 30 →
      (pushTrack track p).length ≤ 30) ∧
    (∀ sa : SpeedAnalyzer, SAReach sa → ∀ p ∈ sa.tracks,
      p.2.speeds.length = 5) ∧
    (∀ (sa : SpeedAnalyzer) (tid : ℤ) (center : ℝ × ℝ) (timestamp : ℝ)
      (td : TrackData), dictGet sa.tracks tid = some td →
      (dictGet (sa.update tid center timestamp).tracks tid).map
        (fun td' => td'.positions) = some (td.positions ++ [center])) := by
  refine ⟨pushTrack_bound, ?_, ?_⟩
  · intro sa h p hp
    exact ((saReach_inv sa h).2 p hp).1
  · intro sa tid center timestamp td hget
    by_cases hdt : timestamp - td.prev_time ≤ 0.001
    · rw [update_eq_dup sa tid center timestamp td hget hdt,
        dictGet_dictSet, Option.map_some']
    · by_cases hspd : 0 < speedOf sa td center timestamp ∧
          speedOf sa td center timestamp < 200
      · rw [update_eq_pass sa tid center timestamp td hget hdt hspd,
          dictGet_dictSet, Option.map_some']
      · rw [update_eq_fail sa tid center timestamp td hget hdt hspd,
          dictGet_dictSet, Option.map_some']

/-- Witness for the amended C4 theorem at concrete inputs. -/
theorem per_track_state_bounds_witness :
    (List.replicate 30 ((0 : ℚ), (0 : ℚ))).length ≤ 30 ∧
    (pushTrack (List.replicate 30 ((0 : ℚ), (0 : ℚ))) (1, 1)).length ≤ 30 ∧
    ((1 : ℤ), wTD).2.speeds.length = 5 ∧
    (dictGet (wSA.update 1 (5, 5) 9).tracks 1).map (fun td' => td'.positions) =
      some (wTD.positions ++ [(5, 5)]) := by
  have hmem : ((1 : ℤ), wTD) ∈ wSA.tracks := by
    have h : wSA.tracks = dictSet (SpeedAnalyzer.init 5).tracks 1 wTD := by
      unfold wSA
      rw [update_eq_new (SpeedAnalyzer.init 5) 1 (0, 0) 0 rfl]
      rfl
    rw [h]
    exact List.mem_cons_self _ _
  refine ⟨by decide, ?_, ?_, ?_⟩
  · exact per_track_state_bounds.1 _ _ (by decide)
  · exact per_track_state_bounds.2.1 wSA (SAReach.step _ _ _ _ (SAReach.init 5))
      ((1 : ℤ), wTD) hmem
  · exact per_track_state_bounds.2.2 wSA 1 (5, 5) 9 wTD wSA_tracks

/-! ## Construction (initialize_tracking, object_tracking.py lines 38-67, and
SpeedAnalyzer.__init__) -/

/-- The tuple returned by initialize_tracking: fresh counters and sets, the
two hard-coded polygons, and the fixed fps/size constants.  The function takes
no polygon or calibration input and contains no validation. -/
structure TrackingInit where
  videowriter : Option Unit
  track_history : List (ℤ × List (ℚ × ℚ))
  count_passed : ℤ
  count_exited : ℤ
  entered_ids : Finset ℤ
  entry_time : ℤ → Option ℚ
  warned_ids : Finset ℤ
  polygon_points : List (ℤ × ℤ)
  polygon_points1 : List (ℤ × ℤ)
  fps : ℕ
  frame_width : ℕ
  frame_height : ℕ

/-- initialize_tracking (lines 38-67). -/
def initTracking : TrackingInit :=
  { videowriter := none, track_history := [], count_passed := 0,
    count_exited := 0, entered_ids := ∅, entry_time := fun _ => none,
    warned_ids := ∅,
    polygon_points := [(0, 500), (0, 670), (1918, 630), (1918, 463)],
    polygon_points1 := [(120, 470), (1731, 428), (1918, 133), (1918, 0),
      (1350, 0)],
    fps := 30, frame_width := 1920, frame_height := 1080 }

/-- C8 counterexample: constructing the analyzer with the non-positive
pixels-per-distance constant 0 (or -3) does not fail at construction time: it
returns a perfectly formed state that stores the invalid constant. -/
theorem construction_no_rejection_counterexample :
    (SpeedAnalyzer.init 0).pixels_per_meter = 0 ∧
    (SpeedAnalyzer.init (-3)).pixels_per_meter = -3 ∧
    (SpeedAnalyzer.init 0).tracks = [] ∧ (SpeedAnalyzer.init 0).speeds = [] :=
  ⟨rfl, rfl, rfl, rfl⟩

/-- C8 (amended): construction rejects nothing.  SpeedAnalyzer.__init__
stores any pixels-per-meter value unchanged in a fresh state and never fails,
and initialize_tracking takes no polygon input and always returns the two
fixed polygons of 4 and 5 vertices (both at least 3), so a malformed polygon
cannot arise from construction; invalid configuration is not rejected at
construction time. -/
theorem construction_performs_no_validation :
    (∀ ppm : ℝ, SpeedAnalyzer.init ppm =
      { tracks := [], speeds := [], pixels_per_meter := ppm,
        all_tracked_vehicles := ∅ }) ∧
    initTracking.polygon_points.length = 4 ∧
    initTracking.polygon_points1.length = 5 ∧
    3 ≤ initTracking.polygon_points.length ∧
    3 ≤ initTracking.polygon_points1.length :=
  ⟨fun _ => rfl, rfl, rfl, by decide, by decide⟩
